import Mathlib

/-!
Verification of the tile expiry engine of the osm2pgsql fork.

The definitions below are a shallow embedding of the C++ sources
`expire-tiles.cpp` / `expire-tiles.hpp` / `intersecting_tiles.cpp`.
Machine integers (`uint32_t`, `uint64_t`) are modelled as `Nat`; all the
quadkey arithmetic stays below `2 ^ 64` on the domains considered, so no
wrap-around modelling is needed there.  `double` values are modelled as `ℚ`
where the code only compares, adds and truncates them.
-/

/-- Embedding of `struct xy_coord_t` (expire-tiles.hpp): the x and y index of
a tile ID, default-initialised to `(0, 0)`. -/
structure xy_coord_t where
  x : Nat := 0
  y : Nat := 0
  deriving Repr, DecidableEq

/-- Embedding of `expire_tiles::xy_to_quadkey` (expire-tiles.cpp).  The C++
loop runs `z` from `0` to `zoom - 1`, or-ing in `(x & (1ULL << z)) << z` and
`(y & (1ULL << z)) << (z + 1)`; the recursion below performs the same
iterations bottom-up. -/
def xy_to_quadkey (x y : Nat) : Nat → Nat
  | 0 => 0
  | z + 1 =>
    xy_to_quadkey x y z ||| ((x &&& (1 <<< z)) <<< z) ||| ((y &&& (1 <<< z)) <<< (z + 1))

/-- Loop body of `expire_tiles::quadkey_to_xy` (expire-tiles.cpp): the C++
loop runs `z` from `zoom` down to `1`, adding
`(quadkey & (1ULL << (2*z-1))) >> z` to `y` and
`(quadkey & (1ULL << (2*(z-1)))) >> (z-1)` to `x`. -/
def quadkey_to_xy_loop (q : Nat) : Nat → xy_coord_t → xy_coord_t
  | 0, r => r
  | z + 1, r =>
    quadkey_to_xy_loop q z
      { y := r.y + ((q &&& (1 <<< (2 * (z + 1) - 1))) >>> (z + 1)),
        x := r.x + ((q &&& (1 <<< (2 * ((z + 1) - 1)))) >>> ((z + 1) - 1)) }

/-- Embedding of `expire_tiles::quadkey_to_xy` (expire-tiles.cpp). -/
def quadkey_to_xy (quadkey_coord : Nat) (zoom : Nat) : xy_coord_t :=
  quadkey_to_xy_loop quadkey_coord zoom {}

/-- Sum of the x contributions of the decoder loop, levels `1 .. z`. -/
def decX (q : Nat) : Nat → Nat
  | 0 => 0
  | z + 1 => (q &&& (1 <<< (2 * z))) >>> z + decX q z

/-- Sum of the y contributions of the decoder loop, levels `1 .. z`. -/
def decY (q : Nat) : Nat → Nat
  | 0 => 0
  | z + 1 => (q &&& (1 <<< (2 * z + 1))) >>> (z + 1) + decY q z

/-- The decoder loop only adds the level sums onto its accumulator. -/
theorem quadkey_to_xy_loop_spec (q : Nat) :
    ∀ (n : Nat) (r : xy_coord_t),
      quadkey_to_xy_loop q n r = { x := r.x + decX q n, y := r.y + decY q n } := by
  intro n
  induction n with
  | zero => intro r; simp [quadkey_to_xy_loop, decX, decY]
  | succ n ih =>
    intro r
    have e1 : 2 * ((n + 1) - 1) = 2 * n := by omega
    have e2 : (n + 1) - 1 = n := by omega
    have e3 : 2 * (n + 1) - 1 = 2 * n + 1 := by omega
    rw [quadkey_to_xy_loop, ih]
    simp only [e1, e2, e3, decX, decY, xy_coord_t.mk.injEq]
    omega

/-- The decoder is the pair of level sums. -/
theorem quadkey_to_xy_eq (q z : Nat) :
    quadkey_to_xy q z = { x := decX q z, y := decY q z } := by
  rw [quadkey_to_xy, quadkey_to_xy_loop_spec]
  simp

/-- A single or-term of the encoder: `(x & (1 << z)) << s` has exactly one
(possibly zero) bit, at position `z + s`. -/
theorem testBit_and_pow_shift (x z s n : Nat) :
    ((x &&& (1 <<< z)) <<< s).testBit n = (decide (n = z + s) && x.testBit z) := by
  rw [Nat.testBit_shiftLeft, Nat.testBit_and, Nat.one_shiftLeft, Nat.testBit_two_pow]
  by_cases h : n = z + s
  · subst h
    have h1 : z + s ≥ s := by omega
    have h2 : z + s - s = z := by omega
    simp [h1, h2]
  · by_cases h2 : n ≥ s
    · have h3 : ¬(z = n - s) := by omega
      simp [h, h2, h3]
    · simp [h, h2]

/-- Bit-level characterisation of the encoder: bit `2k` of the quadkey is
bit `k` of `x` and bit `2k + 1` is bit `k` of `y`, for `k < zoom`; all other
bits are clear. -/
theorem testBit_xy_to_quadkey (x y z n : Nat) :
    (xy_to_quadkey x y z).testBit n =
      (decide (n < 2 * z) && (if n % 2 = 0 then x.testBit (n / 2) else y.testBit (n / 2))) := by
  induction z generalizing n with
  | zero => simp [xy_to_quadkey]
  | succ z ih =>
    rw [xy_to_quadkey, Nat.testBit_or, Nat.testBit_or, ih,
      testBit_and_pow_shift, testBit_and_pow_shift]
    rcases Nat.lt_or_ge n (2 * z) with h | h
    · have d0 : decide (n < 2 * z) = true := by simp [h]
      have d1 : decide (n = z + z) = false := by simp; omega
      have d2 : decide (n = z + (z + 1)) = false := by simp; omega
      have d3 : decide (n < 2 * (z + 1)) = true := by simp; omega
      rw [d0, d1, d2, d3]
      simp
    · rcases Nat.lt_or_ge n (2 * (z + 1)) with h' | h'
      · rcases Nat.eq_or_lt_of_le h with h0 | h0
        · have d0 : decide (n < 2 * z) = false := by simp; omega
          have d1 : decide (n = z + z) = true := by simp; omega
          have d2 : decide (n = z + (z + 1)) = false := by simp; omega
          have d3 : decide (n < 2 * (z + 1)) = true := by simp; omega
          have h4 : n / 2 = z := by omega
          have h3 : n % 2 = 0 := by omega
          rw [d0, d1, d2, d3, h4]
          simp [h3]
        · have d0 : decide (n < 2 * z) = false := by simp; omega
          have d1 : decide (n = z + z) = false := by simp; omega
          have d2 : decide (n = z + (z + 1)) = true := by simp; omega
          have d3 : decide (n < 2 * (z + 1)) = true := by simp; omega
          have h4 : n / 2 = z := by omega
          have h3 : n % 2 = 1 := by omega
          rw [d0, d1, d2, d3, h4]
          simp [h3]
      · have d0 : decide (n < 2 * z) = false := by simp; omega
        have d1 : decide (n = z + z) = false := by simp; omega
        have d2 : decide (n = z + (z + 1)) = false := by simp; omega
        have d3 : decide (n < 2 * (z + 1)) = false := by simp; omega
        rw [d0, d1, d2, d3]
        simp

/-- The expression `(q & (1 << m)) >> s` extracts bit `m` of `q`, scaled by `2 ^ (m - s)`. -/
theorem and_pow_shiftRight (q m s : Nat) (h : s ≤ m) :
    (q &&& (1 <<< m)) >>> s = (q.testBit m).toNat * 2 ^ (m - s) := by
  rw [Nat.one_shiftLeft, Nat.and_two_pow, Nat.shiftRight_eq_div_pow,
    Nat.mul_div_assoc _ (pow_dvd_pow 2 h), Nat.pow_div h (by omega)]

/-- One unfolding of the decoded x sum, in terms of a single quadkey bit. -/
theorem decX_succ (q z : Nat) :
    decX q (z + 1) = (q.testBit (2 * z)).toNat * 2 ^ z + decX q z := by
  have h : 2 * z - z = z := by omega
  rw [decX, and_pow_shiftRight q (2 * z) z (by omega), h]

/-- One unfolding of the decoded y sum, in terms of a single quadkey bit. -/
theorem decY_succ (q z : Nat) :
    decY q (z + 1) = (q.testBit (2 * z + 1)).toNat * 2 ^ z + decY q z := by
  have h : 2 * z + 1 - (z + 1) = z := by omega
  rw [decY, and_pow_shiftRight q (2 * z + 1) (z + 1) (by omega), h]

/-- Both decoded coordinates stay below `2 ^ zoom`. -/
theorem decXY_lt (q z : Nat) : decX q z < 2 ^ z ∧ decY q z < 2 ^ z := by
  induction z with
  | zero => simp [decX, decY]
  | succ z ih =>
    rw [decX_succ, decY_succ]
    have hbx : (q.testBit (2 * z)).toNat ≤ 1 := Bool.toNat_le _
    have hby : (q.testBit (2 * z + 1)).toNat ≤ 1 := Bool.toNat_le _
    have hp : 2 ^ (z + 1) = 2 ^ z + 2 ^ z := by ring
    constructor <;> rw [hp] <;> nlinarith [ih.1, ih.2]

/-- Bit-level characterisation of the decoded x coordinate. -/
theorem testBit_decX (q z n : Nat) :
    (decX q z).testBit n = (decide (n < z) && q.testBit (2 * n)) := by
  induction z generalizing n with
  | zero => simp [decX]
  | succ z ih =>
    rw [decX_succ, mul_comm ((q.testBit (2 * z)).toNat) (2 ^ z),
      Nat.testBit_mul_pow_two_add _ (decXY_lt q z).1 n]
    rcases Nat.lt_or_ge n z with h | h
    · have h1 : n < z + 1 := by omega
      simp [h, h1, ih]
    · rcases Nat.eq_or_lt_of_le h with h0 | h0
      · rw [h0] at *
        have h1 : ¬(n < n) := by omega
        have h2 : n - n = 0 := by omega
        rw [if_neg h1, h2]
        have h3 : decide (n < n + 1) = true := by simp
        rw [h3, Bool.true_and]
        cases hb : q.testBit (2 * n) <;> simp [hb]
      · have h1 : ¬(n < z) := by omega
        have h2 : decide (n < z + 1) = false := by simp; omega
        rw [if_neg h1, h2, Bool.false_and]
        cases hb : q.testBit (2 * z)
        · simp
        · simp only [Bool.toNat_true]
          exact Nat.testBit_lt_two_pow
            (show (1 : Nat) < 2 ^ (n - z) from Nat.one_lt_two_pow_iff.mpr (by omega))

/-- Bit-level characterisation of the decoded y coordinate. -/
theorem testBit_decY (q z n : Nat) :
    (decY q z).testBit n = (decide (n < z) && q.testBit (2 * n + 1)) := by
  induction z generalizing n with
  | zero => simp [decY]
  | succ z ih =>
    rw [decY_succ, mul_comm ((q.testBit (2 * z + 1)).toNat) (2 ^ z),
      Nat.testBit_mul_pow_two_add _ (decXY_lt q z).2 n]
    rcases Nat.lt_or_ge n z with h | h
    · have h1 : n < z + 1 := by omega
      simp [h, h1, ih]
    · rcases Nat.eq_or_lt_of_le h with h0 | h0
      · rw [h0] at *
        have h1 : ¬(n < n) := by omega
        have h2 : n - n = 0 := by omega
        rw [if_neg h1, h2]
        have h3 : decide (n < n + 1) = true := by simp
        rw [h3, Bool.true_and]
        cases hb : q.testBit (2 * n + 1) <;> simp [hb]
      · have h1 : ¬(n < z) := by omega
        have h2 : decide (n < z + 1) = false := by simp; omega
        rw [if_neg h1, h2, Bool.false_and]
        cases hb : q.testBit (2 * z + 1)
        · simp
        · simp only [Bool.toNat_true]
          exact Nat.testBit_lt_two_pow
            (show (1 : Nat) < 2 ^ (n - z) from Nat.one_lt_two_pow_iff.mpr (by omega))

/-- C1: Quadkey round-trip.  For every zoom `z ≤ 31` and `x, y < 2 ^ z`,
`quadkey_to_xy (xy_to_quadkey x y z) z` returns exactly `(x, y)`. -/
theorem quadkey_roundtrip (x y z : Nat) (hx : x < 2 ^ z) (hy : y < 2 ^ z)
    (hz : z ≤ 31) : quadkey_to_xy (xy_to_quadkey x y z) z = { x := x, y := y } := by
  clear hz
  rw [quadkey_to_xy_eq]
  have ex : decX (xy_to_quadkey x y z) z = x := by
    apply Nat.eq_of_testBit_eq
    intro n
    rw [testBit_decX, testBit_xy_to_quadkey]
    have hmod : 2 * n % 2 = 0 := by omega
    have hdiv : 2 * n / 2 = n := by omega
    rcases Nat.lt_or_ge n z with h | h
    · have h2 : 2 * n < 2 * z := by omega
      simp [h, h2, hmod, hdiv]
    · have h2 : ¬(n < z) := by omega
      have h3 : x.testBit n = false :=
        Nat.testBit_lt_two_pow (lt_of_lt_of_le hx (Nat.pow_le_pow_right (by omega) h))
      simp [h2, h3]
  have ey : decY (xy_to_quadkey x y z) z = y := by
    apply Nat.eq_of_testBit_eq
    intro n
    rw [testBit_decY, testBit_xy_to_quadkey]
    have hmod : ¬((2 * n + 1) % 2 = 0) := by omega
    have hdiv : (2 * n + 1) / 2 = n := by omega
    rcases Nat.lt_or_ge n z with h | h
    · have h2 : 2 * n + 1 < 2 * z := by omega
      simp [h, h2, hmod, hdiv]
    · have h2 : ¬(n < z) := by omega
      have h3 : y.testBit n = false :=
        Nat.testBit_lt_two_pow (lt_of_lt_of_le hy (Nat.pow_le_pow_right (by omega) h))
      simp [h2, h3]
  rw [ex, ey]

/-- Witness for C1 at the concrete input `x = 3, y = 5, z = 3`. -/
theorem quadkey_roundtrip_witness :
    3 < 2 ^ 3 ∧ 5 < 2 ^ 3 ∧ (3 : Nat) ≤ 31 ∧
      quadkey_to_xy (xy_to_quadkey 3 5 3) 3 = { x := 3, y := 5 } :=
  ⟨by decide, by decide, by decide, quadkey_roundtrip 3 5 3 (by decide) (by decide) (by decide)⟩

/-- The encoder never sets a bit at position `2 * zoom` or above: it only
reads the low `zoom` bits of each coordinate. -/
theorem xy_to_quadkey_lt (x y z : Nat) : xy_to_quadkey x y z < 2 ^ (2 * z) := by
  induction z with
  | zero => simp [xy_to_quadkey]
  | succ z ih =>
    rw [xy_to_quadkey]
    have hQ : xy_to_quadkey x y z < 2 ^ (2 * (z + 1)) :=
      lt_of_lt_of_le ih (Nat.pow_le_pow_right (by omega) (by omega))
    have hA : ((x &&& (1 <<< z)) <<< z) < 2 ^ (2 * (z + 1)) := by
      rw [Nat.shiftLeft_eq]
      have h1 : x &&& (1 <<< z) ≤ 2 ^ z := by
        rw [Nat.one_shiftLeft]
        exact Nat.and_le_right
      have h2 : (x &&& (1 <<< z)) * 2 ^ z ≤ 2 ^ z * 2 ^ z := Nat.mul_le_mul_right _ h1
      have h3 : (2 : Nat) ^ z * 2 ^ z < 2 ^ (2 * (z + 1)) := by
        rw [← pow_add]
        exact Nat.pow_lt_pow_right (by omega) (by omega)
      omega
    have hB : ((y &&& (1 <<< z)) <<< (z + 1)) < 2 ^ (2 * (z + 1)) := by
      rw [Nat.shiftLeft_eq]
      have h1 : y &&& (1 <<< z) ≤ 2 ^ z := by
        rw [Nat.one_shiftLeft]
        exact Nat.and_le_right
      have h2 : (y &&& (1 <<< z)) * 2 ^ (z + 1) ≤ 2 ^ z * 2 ^ (z + 1) :=
        Nat.mul_le_mul_right _ h1
      have h3 : (2 : Nat) ^ z * 2 ^ (z + 1) < 2 ^ (2 * (z + 1)) := by
        rw [← pow_add]
        exact Nat.pow_lt_pow_right (by omega) (by omega)
      omega
    exact Nat.or_lt_two_pow (Nat.or_lt_two_pow hQ hA) hB

/-- C5: Ancestor-by-shift.  Right-shifting a quadkey by `2 * d` yields the
quadkey of the ancestor tile `d` zoom levels up. -/
theorem quadkey_ancestor_shift (x y z d : Nat) (hx : x < 2 ^ z) (hy : y < 2 ^ z)
    (hz : z ≤ 31) (hd : d ≤ z) :
    xy_to_quadkey x y z >>> (2 * d) = xy_to_quadkey (x >>> d) (y >>> d) (z - d) := by
  clear hx hy hz
  apply Nat.eq_of_testBit_eq
  intro n
  rw [Nat.testBit_shiftRight, testBit_xy_to_quadkey, testBit_xy_to_quadkey]
  have hmod : (2 * d + n) % 2 = n % 2 := by omega
  have hd1 : decide (2 * d + n < 2 * z) = decide (n < 2 * (z - d)) := by
    rcases Nat.lt_or_ge n (2 * (z - d)) with h | h
    · have h1 : 2 * d + n < 2 * z := by omega
      simp [h, h1]
    · have h1 : ¬(2 * d + n < 2 * z) := by omega
      have h2 : ¬(n < 2 * (z - d)) := by omega
      simp [h1, h2]
  have hdiv : (2 * d + n) / 2 = d + n / 2 := by omega
  rw [hmod, hd1, hdiv, Nat.testBit_shiftRight, Nat.testBit_shiftRight]

/-- Witness for C5 at `x = 3, y = 5, z = 3, d = 2`. -/
theorem quadkey_ancestor_shift_witness :
    3 < 2 ^ 3 ∧ 5 < 2 ^ 3 ∧ (3 : Nat) ≤ 31 ∧ (2 : Nat) ≤ 3 ∧
      xy_to_quadkey 3 5 3 >>> (2 * 2) = xy_to_quadkey (3 >>> 2) (5 >>> 2) (3 - 2) :=
  ⟨by decide, by decide, by decide, by decide,
    quadkey_ancestor_shift 3 5 3 2 (by decide) (by decide) (by decide) (by decide)⟩

/-- C6: Encoding boundary vectors fixing the YXYX bit layout and 64-bit
arithmetic. -/
theorem quadkey_boundary_vectors :
    xy_to_quadkey 3 5 3 = 0x27 ∧
    xy_to_quadkey 65535 65535 16 = 0xFFFFFFFF ∧
    xy_to_quadkey 262143 262143 18 = 0xFFFFFFFFF ∧
    xy_to_quadkey 131068 131068 18 = 0x3FFFFFFF0 := by
  refine ⟨by decide, ?_, ?_, ?_⟩ <;> decide

/-- Decoding then re-encoding is the identity on quadkeys below `4 ^ zoom`
(the reverse of C1; used to show the decoder is injective there). -/
theorem xy_to_quadkey_quadkey_to_xy (q z : Nat) (hq : q < 2 ^ (2 * z)) :
    xy_to_quadkey (quadkey_to_xy q z).x (quadkey_to_xy q z).y z = q := by
  rw [quadkey_to_xy_eq]
  apply Nat.eq_of_testBit_eq
  intro n
  rw [testBit_xy_to_quadkey]
  rcases Nat.lt_or_ge n (2 * z) with h | h
  · have d : decide (n < 2 * z) = true := by simp [h]
    rw [d, Bool.true_and]
    rcases Nat.even_or_odd n with he | ho
    · have h0 : n % 2 = 0 := Nat.even_iff.mp he
      have h1 : 2 * (n / 2) = n := by omega
      have h2 : n / 2 < z := by omega
      rw [if_pos h0]
      simp only [testBit_decX, h1]
      simp [h2]
    · have h0 : ¬(n % 2 = 0) := by
        have := Nat.odd_iff.mp ho
        omega
      have h1 : 2 * (n / 2) + 1 = n := by
        have := Nat.odd_iff.mp ho
        omega
      have h2 : n / 2 < z := by omega
      rw [if_neg h0]
      simp only [testBit_decY, h1]
      simp [h2]
  · have d : decide (n < 2 * z) = false := by simp; omega
    have hqb : q.testBit n = false :=
      Nat.testBit_lt_two_pow (lt_of_lt_of_le hq (Nat.pow_le_pow_right (by omega) h))
    rw [d, Bool.false_and, hqb]

/-- Embedding of `struct expire_tiles` (expire-tiles.hpp).  The
`std::unordered_set<uint64_t> m_dirty_tiles` is modelled as a list of its
elements in an unspecified order (the hash set never holds duplicates, and
iteration order is unspecified, which is why `output_and_destroy` sorts). -/
structure expire_tiles where
  tile_width : ℚ
  max_bbox : ℚ
  map_width : Nat
  maxzoom : Nat
  last_tile_x : Nat
  last_tile_y : Nat
  m_dirty_tiles : List Nat
  deriving Repr, DecidableEq

/-- Embedding of `std::unordered_set::insert`: add the element unless already present. -/
def set_insert (l : List Nat) (q : Nat) : List Nat :=
  if q ∈ l then l else q :: l

/-- Embedding of `expire_tiles::valid_tile_coord` (expire-tiles.cpp):
`return coord <= map_width;`. -/
def valid_tile_coord (s : expire_tiles) (coord : Nat) : Bool :=
  coord ≤ s.map_width

/-- Embedding of `expire_tiles::expire_tile` (expire-tiles.cpp). -/
def expire_tile (s : expire_tiles) (x y : Nat) : expire_tiles :=
  if ¬(valid_tile_coord s x) ∨ ¬(valid_tile_coord s y) then s
  else if s.last_tile_x ≠ x ∨ s.last_tile_y ≠ y then
    { s with
      m_dirty_tiles := set_insert s.m_dirty_tiles (xy_to_quadkey x y s.maxzoom),
      last_tile_x := x,
      last_tile_y := y }
  else s

/-- Embedding of `expire_tiles::from_bbox_without_buffer` (expire-tiles.cpp):
two nested inclusive loops over the integer tile rectangle. -/
def from_bbox_without_buffer (s : expire_tiles) (min_x min_y max_x max_y : Nat) :
    expire_tiles :=
  (List.range' min_x (max_x + 1 - min_x)).foldl
    (fun acc iterator_x =>
      (List.range' min_y (max_y + 1 - min_y)).foldl
        (fun acc2 iterator_y => expire_tile acc2 iterator_x iterator_y) acc)
    s

/-- Embedding of `expire_tiles::merge_and_destroy` (expire-tiles.cpp).  A
thrown `std::runtime_error` is modelled as a `some` message in the first
component; the remaining components are the post-states of `*this` and
`other` (a throw happens before any mutation). -/
def merge_and_destroy (s other : expire_tiles) :
    Option String × expire_tiles × expire_tiles :=
  if s.map_width ≠ other.map_width then
    (some "Unable to merge tile expiry sets when map_width does not match.",
      s, other)
  else if s.tile_width ≠ other.tile_width then
    (some "Unable to merge tile expiry sets when tile_width does not match.",
      s, other)
  else
    ((none : Option String),
      { s with
        m_dirty_tiles :=
          if s.m_dirty_tiles.length = 0 then other.m_dirty_tiles
          else other.m_dirty_tiles.foldl set_insert s.m_dirty_tiles },
      { other with m_dirty_tiles := [] })

/-- Membership in a hash-set insertion. -/
theorem mem_set_insert (l : List Nat) (a q : Nat) :
    q ∈ set_insert l a ↔ q = a ∨ q ∈ l := by
  unfold set_insert
  by_cases h : a ∈ l
  · simp only [if_pos h]
    constructor
    · intro hq; exact Or.inr hq
    · rintro (rfl | hq) <;> [exact h; exact hq]
  · simp [if_neg h]

/-- Elements of a drained merge: exactly the union of the two sets. -/
theorem toFinset_foldl_set_insert (l2 : List Nat) :
    ∀ l1 : List Nat,
      (List.foldl set_insert l1 l2).toFinset = l1.toFinset ∪ l2.toFinset := by
  induction l2 with
  | nil => intro l1; simp
  | cons a t ih =>
    intro l1
    rw [List.foldl_cons, ih]
    have h : (set_insert l1 a).toFinset = insert a l1.toFinset := by
      unfold set_insert
      by_cases h : a ∈ l1
      · simp only [if_pos h]
        rw [Finset.insert_eq_self.mpr (List.mem_toFinset.mpr h)]
      · simp [if_neg h]
    rw [h]
    ext b
    simp

/-- C3: `merge_and_destroy` fails exactly when `map_width` or `tile_width`
differ; on failure both dirty-tile sets (indeed both whole states) are
unchanged; on success `self`'s set becomes the union and `other`'s set is
emptied. -/
theorem merge_and_destroy_spec (s other : expire_tiles) :
    ((merge_and_destroy s other).1.isSome ↔
        (s.map_width ≠ other.map_width ∨ s.tile_width ≠ other.tile_width)) ∧
    ((merge_and_destroy s other).1.isSome →
        (merge_and_destroy s other).2.1 = s ∧
        (merge_and_destroy s other).2.2 = other) ∧
    ((merge_and_destroy s other).1 = none →
        (merge_and_destroy s other).2.1.m_dirty_tiles.toFinset =
          s.m_dirty_tiles.toFinset ∪ other.m_dirty_tiles.toFinset ∧
        (merge_and_destroy s other).2.2.m_dirty_tiles = []) := by
  unfold merge_and_destroy
  by_cases h1 : s.map_width ≠ other.map_width
  · simp [h1]
  · by_cases h2 : s.tile_width ≠ other.tile_width
    · simp [h1, h2]
    · by_cases h3 : s.m_dirty_tiles.length = 0
      · have h4 : s.m_dirty_tiles = [] := List.length_eq_zero.mp h3
        simp [h1, h2, h3, h4]
      · simp [h1, h2, h3,
          toFinset_foldl_set_insert other.m_dirty_tiles s.m_dirty_tiles]

/-- A small concrete `expire_tiles` state (as built by the constructor for
`maxzoom = 1`: `map_width = 2`, `last_tile_* = map_width + 1`), used to
instantiate theorems at concrete inputs. -/
def sample_expire_state : expire_tiles :=
  { tile_width := 40075016.68 / 2,
    max_bbox := 20000,
    map_width := 2,
    maxzoom := 1,
    last_tile_x := 3,
    last_tile_y := 3,
    m_dirty_tiles := [] }

/-- C4 counterexample: the claim says a call with `x ≥ map_width` leaves the
dirty-tile set unchanged, but `valid_tile_coord` accepts `coord ≤ map_width`,
so `expire_tile(map_width, 0)` inserts a quadkey. -/
theorem expire_tile_boundary_counterexample :
    2 ≥ sample_expire_state.map_width ∧
      (expire_tile sample_expire_state 2 0).m_dirty_tiles ≠
        sample_expire_state.m_dirty_tiles := by
  constructor
  · decide
  · intro h
    simp [expire_tile, valid_tile_coord, sample_expire_state, set_insert] at h

/-- C4 (amended): `expire_tile(x, y)` silently drops the insertion iff
`x > map_width` or `y > map_width` (strict, not `≥`); otherwise, unless
`(x, y)` equals the cached `(last_tile_x, last_tile_y)` (in which case the
state is unchanged), the quadkey of `(x, y)` at maxzoom is inserted and the
cache is updated to `(x, y)`. -/
theorem expire_tile_spec (s : expire_tiles) (x y : Nat) :
    (x > s.map_width ∨ y > s.map_width → expire_tile s x y = s) ∧
    (x ≤ s.map_width → y ≤ s.map_width →
      ((x, y) ≠ (s.last_tile_x, s.last_tile_y) →
        expire_tile s x y =
          { s with
            m_dirty_tiles :=
              set_insert s.m_dirty_tiles (xy_to_quadkey x y s.maxzoom),
            last_tile_x := x,
            last_tile_y := y }) ∧
      ((x, y) = (s.last_tile_x, s.last_tile_y) → expire_tile s x y = s)) := by
  unfold expire_tile valid_tile_coord
  constructor
  · intro h
    have hcond : (¬(decide (x ≤ s.map_width) = true) ∨
        ¬(decide (y ≤ s.map_width) = true)) := by
      rcases h with h | h
      · left; simp; omega
      · right; simp; omega
    rw [if_pos hcond]
  · intro hx hy
    have hcond : ¬(¬(decide (x ≤ s.map_width) = true) ∨
        ¬(decide (y ≤ s.map_width) = true)) := by
      simp
      omega
    rw [if_neg hcond]
    constructor
    · intro hne
      have h2 : s.last_tile_x ≠ x ∨ s.last_tile_y ≠ y := by
        by_contra hc
        push_neg at hc
        exact hne (by simp [Prod.ext_iff, hc.1.symm, hc.2.symm])
      rw [if_pos h2]
    · intro heq
      have h2 : ¬(s.last_tile_x ≠ x ∨ s.last_tile_y ≠ y) := by
        simp only [Prod.mk.injEq] at heq
        push_neg
        exact ⟨heq.1.symm, heq.2.symm⟩
      rw [if_neg h2]

/-- Witness for the amended C4, exercising both the drop branch (`x = 3 >
map_width = 2`) and the insert branch at `(1, 0)`. -/
theorem expire_tile_spec_witness :
    expire_tile sample_expire_state 3 0 = sample_expire_state ∧
      expire_tile sample_expire_state 1 0 =
        { sample_expire_state with
          m_dirty_tiles :=
            set_insert sample_expire_state.m_dirty_tiles
              (xy_to_quadkey 1 0 sample_expire_state.maxzoom),
          last_tile_x := 1,
          last_tile_y := 0 } :=
  ⟨(expire_tile_spec sample_expire_state 3 0).1 (by decide),
    ((expire_tile_spec sample_expire_state 1 0).2 (by decide) (by decide)).1 (by decide)⟩

/-- The quadkey-range invariant of the dirty-tile set: every stored quadkey
is strictly below the sentinel `1 << (2 * maxzoom)` used by
`output_and_destroy`. -/
def quadkey_bound_inv (s : expire_tiles) : Prop :=
  ∀ q ∈ s.m_dirty_tiles, q < 1 <<< (2 * s.maxzoom)

/-- The operation `expire_tile` preserves the quadkey-range invariant for arbitrary
(uint32) arguments, because `xy_to_quadkey` only reads the low `maxzoom`
bits of each coordinate. -/
theorem expire_tile_bound_inv (s : expire_tiles) (x y : Nat)
    (h : quadkey_bound_inv s) : quadkey_bound_inv (expire_tile s x y) := by
  unfold expire_tile
  split
  · exact h
  · split
    · intro q hq
      simp only at hq
      rw [mem_set_insert] at hq
      rcases hq with rfl | hq
      · simpa [Nat.one_shiftLeft] using xy_to_quadkey_lt x y s.maxzoom
      · exact h q hq
    · exact h

/-- A fold of `expire_tile` calls preserves the quadkey-range invariant. -/
theorem foldl_expire_tile_bound_inv (l : List (Nat × Nat)) :
    ∀ s : expire_tiles, quadkey_bound_inv s →
      quadkey_bound_inv (l.foldl (fun acc c => expire_tile acc c.1 c.2) s) := by
  induction l with
  | nil => intro s h; exact h
  | cons c t ih =>
    intro s h
    exact ih _ (expire_tile_bound_inv s c.1 c.2 h)

/-- Inner loop of `from_bbox_without_buffer` preserves the invariant. -/
theorem foldl_expire_tile_y_bound_inv (ix : Nat) (l : List Nat) :
    ∀ s : expire_tiles, quadkey_bound_inv s →
      quadkey_bound_inv (l.foldl (fun acc2 iy => expire_tile acc2 ix iy) s) := by
  induction l with
  | nil => intro s h; exact h
  | cons c t ih =>
    intro s h
    exact ih _ (expire_tile_bound_inv s ix c h)

/-- The operation `from_bbox_without_buffer` preserves the quadkey-range invariant. -/
theorem from_bbox_without_buffer_bound_inv (s : expire_tiles)
    (min_x min_y max_x max_y : Nat) (h : quadkey_bound_inv s) :
    quadkey_bound_inv (from_bbox_without_buffer s min_x min_y max_x max_y) := by
  unfold from_bbox_without_buffer
  generalize List.range' min_x (max_x + 1 - min_x) = lx
  induction lx generalizing s with
  | nil => exact h
  | cons c t ih =>
    exact ih _ (foldl_expire_tile_y_bound_inv c _ s h)

/-- C9: Quadkey-range invariant.  The encoder output is always below
`1 << (2 * zoom)`, and the invariant that every stored quadkey is below the
sentinel `1 << (2 * maxzoom)` is preserved by `expire_tile` with any
arguments, by the integer rasterizer entry `from_bbox_without_buffer` (all
`from_*` operations insert only through these), and by both sides of
`merge_and_destroy` (for states whose `map_width` is `2 ^ maxzoom`, as
established by the constructor). -/
theorem quadkey_range_invariant :
    (∀ x y z : Nat, xy_to_quadkey x y z < 1 <<< (2 * z)) ∧
    (∀ (s : expire_tiles) (x y : Nat), quadkey_bound_inv s →
      quadkey_bound_inv (expire_tile s x y)) ∧
    (∀ (s : expire_tiles) (a b c d : Nat), quadkey_bound_inv s →
      quadkey_bound_inv (from_bbox_without_buffer s a b c d)) ∧
    (∀ s other : expire_tiles, quadkey_bound_inv s → quadkey_bound_inv other →
      s.map_width = 2 ^ s.maxzoom → other.map_width = 2 ^ other.maxzoom →
      quadkey_bound_inv (merge_and_destroy s other).2.1 ∧
      quadkey_bound_inv (merge_and_destroy s other).2.2) := by
  refine ⟨?_, expire_tile_bound_inv, from_bbox_without_buffer_bound_inv, ?_⟩
  · intro x y z
    simpa [Nat.one_shiftLeft] using xy_to_quadkey_lt x y z
  · intro s other hs hother hws hwo
    unfold merge_and_destroy
    by_cases h1 : s.map_width ≠ other.map_width
    · simp only [if_pos h1]
      exact ⟨hs, hother⟩
    · by_cases h2 : s.tile_width ≠ other.tile_width
      · simp only [if_neg h1, if_pos h2]
        exact ⟨hs, hother⟩
      · simp only [if_neg h1, if_neg h2]
        push_neg at h1
        have hz : s.maxzoom = other.maxzoom := by
          have hpow : (2 : Nat) ^ s.maxzoom = 2 ^ other.maxzoom := by
            rw [← hws, ← hwo, h1]
          exact Nat.pow_right_injective (le_refl 2) hpow
        constructor
        · intro q hq
          simp only at hq ⊢
          by_cases h3 : s.m_dirty_tiles.length = 0
          · rw [if_pos h3] at hq
            rw [hz]
            exact hother q hq
          · rw [if_neg h3] at hq
            have := List.mem_toFinset.mpr hq
            rw [toFinset_foldl_set_insert] at this
            rcases Finset.mem_union.mp this with hmem | hmem
            · exact hs q (List.mem_toFinset.mp hmem)
            · rw [hz]
              exact hother q (List.mem_toFinset.mp hmem)
        · intro q hq
          simp at hq

/-- Witness for C9: the invariant holds after expiring tile `(1, 0)` on the
(empty) sample state. -/
theorem quadkey_range_invariant_witness :
    quadkey_bound_inv (expire_tile sample_expire_state 1 0) :=
  quadkey_range_invariant.2.1 sample_expire_state 1 0
    (by intro q hq; simp [sample_expire_state] at hq)

/-- One iteration of the inner `dz` loop of
`expire_tiles::output_and_destroy` (expire-tiles.hpp): skip if the ancestor
quadkey equals the previous element's ancestor, else decode and emit
`(x, y, maxzoom - dz)`. -/
def emitStep (mz q last dz : Nat) : List (Nat × Nat × Nat) :=
  if q >>> (dz * 2) = last >>> (dz * 2) then []
  else
    [((quadkey_to_xy (q >>> (dz * 2)) (mz - dz)).x,
      (quadkey_to_xy (q >>> (dz * 2)) (mz - dz)).y, mz - dz)]

/-- The inner `dz` loop of `output_and_destroy`, for `dz = 0, …, n - 1` in
that order (the code runs `dz` from `0` to `maxzoom - minzoom` inclusive). -/
def emitLevels (mz q last : Nat) : Nat → List (Nat × Nat × Nat)
  | 0 => []
  | n + 1 => emitLevels mz q last n ++ emitStep mz q last n

/-- The outer loop of `output_and_destroy` over the sorted quadkey vector,
threading `last_quadkey`. -/
def emitLoop (mz minz : Nat) : List Nat → Nat → List (Nat × Nat × Nat)
  | [], _ => []
  | q :: rest, last =>
    emitLevels mz q last (mz - minz + 1) ++ emitLoop mz minz rest q

/-- Embedding of the template `expire_tiles::output_and_destroy`
(expire-tiles.hpp): sort the dirty set into a vector, then walk it with
`last_quadkey` initialised to the sentinel `1ULL << (2 * maxzoom)`.  The
result is the sequence of `(x, y, zoom)` triples passed to the writer. -/
def output_and_destroy (s : expire_tiles) (minzoom : Nat) :
    List (Nat × Nat × Nat) :=
  emitLoop s.maxzoom minzoom (s.m_dirty_tiles.insertionSort (· ≤ ·))
    (1 <<< (2 * s.maxzoom))

/-- Drop elements equal to the previous one (the effect of the
`qt_current == last_quadkey >> (dz * 2)` skip at one fixed `dz` over the
walk). -/
def destut : List Nat → Nat → List Nat
  | [], _ => []
  | a :: l, prev => if a = prev then destut l a else a :: destut l a

/-- The subsequence of quadkeys emitted at one fixed shift `s` by the walk. -/
def levelKeys (s : Nat) : List Nat → Nat → List Nat
  | [], _ => []
  | q :: rest, last =>
    (if q >>> s = last >>> s then [] else [q >>> s]) ++ levelKeys s rest q

/-- The function `levelKeys` is `destut` after shifting. -/
theorem levelKeys_eq_destut (s : Nat) (l : List Nat) :
    ∀ last, levelKeys s l last = destut (l.map (· >>> s)) (last >>> s) := by
  induction l with
  | nil => intro last; rfl
  | cons q rest ih =>
    intro last
    rw [levelKeys, List.map_cons, destut]
    by_cases h : q >>> s = last >>> s
    · rw [if_pos h, if_pos h, ih]
      simp
    · rw [if_neg h, if_neg h, ih]
      simp

/-- Every emitted element was in the input. -/
theorem destut_subset : ∀ (l : List Nat) (prev a : Nat), a ∈ destut l prev → a ∈ l := by
  intro l
  induction l with
  | nil => intro prev a h; simp [destut] at h
  | cons b t ih =>
    intro prev a h
    rw [destut] at h
    by_cases hb : b = prev
    · rw [if_pos hb] at h
      exact List.mem_cons_of_mem b (ih b a h)
    · rw [if_neg hb] at h
      rcases List.mem_cons.mp h with rfl | h
      · exact List.mem_cons_self a t
      · exact List.mem_cons_of_mem b (ih b a h)

/-- Every input element is emitted, unless it equals the previous value. -/
theorem mem_destut_or_eq_prev :
    ∀ (l : List Nat) (prev a : Nat), a ∈ l → a ∈ destut l prev ∨ a = prev := by
  intro l
  induction l with
  | nil => intro prev a h; simp at h
  | cons b t ih =>
    intro prev a h
    rw [destut]
    by_cases hb : b = prev
    · rw [if_pos hb]
      rcases List.mem_cons.mp h with rfl | h
      · exact Or.inr hb
      · rcases ih b a h with h' | rfl
        · exact Or.inl h'
        · exact Or.inr hb
    · rw [if_neg hb]
      rcases List.mem_cons.mp h with rfl | h
      · exact Or.inl (List.mem_cons_self a _)
      · rcases ih b a h with h' | rfl
        · exact Or.inl (List.mem_cons_of_mem b h')
        · exact Or.inl (List.mem_cons_self a _)

/-- On a sorted input whose elements all dominate `prev`, the deduplicated
walk is strictly sorted and everything emitted exceeds `prev`. -/
theorem destut_sorted_core :
    ∀ l : List Nat, l.Sorted (· ≤ ·) → ∀ prev, (∀ y ∈ l, prev ≤ y) →
      (destut l prev).Sorted (· < ·) ∧ ∀ b ∈ destut l prev, prev < b := by
  intro l
  induction l with
  | nil => intro _ prev _; simp [destut]
  | cons a t ih =>
    intro hsort prev hdom
    have hta : ∀ y ∈ t, a ≤ y := (List.sorted_cons.mp hsort).1
    have hts : t.Sorted (· ≤ ·) := (List.sorted_cons.mp hsort).2
    rw [destut]
    by_cases hb : a = prev
    · rw [if_pos hb]
      obtain ⟨h1, h2⟩ := ih hts a hta
      subst hb
      exact ⟨h1, h2⟩
    · rw [if_neg hb]
      obtain ⟨h1, h2⟩ := ih hts a hta
      have hpa : prev < a := lt_of_le_of_ne (hdom a (List.mem_cons_self a t)) (Ne.symm hb)
      refine ⟨List.sorted_cons.mpr ⟨h2, h1⟩, ?_⟩
      intro b hbmem
      rcases List.mem_cons.mp hbmem with rfl | hbmem
      · exact hpa
      · exact lt_trans hpa (h2 b hbmem)

/-- Top-level form: with a sentinel strictly above every element, the
deduplicated walk is strictly sorted and emits exactly the set of input
values. -/
theorem destut_sentinel_spec (l : List Nat) (sent : Nat)
    (hsort : l.Sorted (· ≤ ·)) (hlt : ∀ y ∈ l, y < sent) :
    (destut l sent).Sorted (· < ·) ∧ (∀ a, a ∈ destut l sent ↔ a ∈ l) := by
  constructor
  · cases l with
    | nil => simp [destut]
    | cons a t =>
      have hta : ∀ y ∈ t, a ≤ y := (List.sorted_cons.mp hsort).1
      have hts : t.Sorted (· ≤ ·) := (List.sorted_cons.mp hsort).2
      rw [destut]
      have hb : a ≠ sent := Nat.ne_of_lt (hlt a (List.mem_cons_self a t))
      rw [if_neg hb]
      obtain ⟨h1, h2⟩ := destut_sorted_core t hts a hta
      exact List.sorted_cons.mpr ⟨h2, h1⟩
  · intro a
    constructor
    · exact destut_subset l sent a
    · intro h
      rcases mem_destut_or_eq_prev l sent a h with h' | rfl
      · exact h'
      · exact absurd (hlt a h) (by omega)

/-- The `(x, y, zoom)` triple the writer receives for quadkey `k` at zoom
`v`. -/
def tile_of_quadkey (k v : Nat) : Nat × Nat × Nat :=
  ((quadkey_to_xy k v).x, (quadkey_to_xy k v).y, v)

/-- Restricting one `dz` iteration to a fixed zoom `v` keeps it only when
`dz = maxzoom - v`. -/
theorem filter_emitStep (mz v q last dz : Nat) (hv : v ≤ mz) (hdz : dz ≤ mz) :
    (emitStep mz q last dz).filter (fun t => t.2.2 = v) =
      if dz = mz - v then emitStep mz q last dz else [] := by
  unfold emitStep
  by_cases hskip : q >>> (dz * 2) = last >>> (dz * 2)
  · rw [if_pos hskip]
    simp
  · rw [if_neg hskip]
    by_cases hdzv : dz = mz - v
    · have hz : mz - dz = v := by omega
      rw [if_pos hdzv]
      simp [hz]
    · have hz : ¬(mz - dz = v) := by omega
      rw [if_neg hdzv]
      simp [hz]

/-- Restricting the whole inner loop to a fixed zoom `v` leaves exactly the
`dz = maxzoom - v` iteration (when it is within range). -/
theorem filter_emitLevels (mz v q last : Nat) (hv : v ≤ mz) :
    ∀ n, n ≤ mz + 1 →
      (emitLevels mz q last n).filter (fun t => t.2.2 = v) =
        if mz - v < n then emitStep mz q last (mz - v) else [] := by
  intro n
  induction n with
  | zero => intro _; simp [emitLevels]
  | succ n ih =>
    intro hn
    rw [emitLevels, List.filter_append, ih (by omega),
      filter_emitStep mz v q last n hv (by omega)]
    by_cases h1 : mz - v < n
    · have h2 : ¬(n = mz - v) := by omega
      have h3 : mz - v < n + 1 := by omega
      rw [if_pos h1, if_neg h2, if_pos h3, List.append_nil]
    · by_cases h2 : n = mz - v
      · have h3 : mz - v < n + 1 := by omega
        rw [if_neg h1, if_pos h2, if_pos h3, List.nil_append, h2]
      · have h3 : ¬(mz - v < n + 1) := by omega
        rw [if_neg h1, if_neg h2, if_neg h3, List.nil_append]

/-- The zoom-`v` slice of the full walk is the per-level deduplicated key
sequence, decoded. -/
theorem filter_emitLoop (mz minz v : Nat) (hmz : minz ≤ mz) (hv1 : minz ≤ v)
    (hv2 : v ≤ mz) :
    ∀ (l : List Nat) (last : Nat),
      (emitLoop mz minz l last).filter (fun t => t.2.2 = v) =
        (levelKeys ((mz - v) * 2) l last).map (fun k => tile_of_quadkey k v) := by
  intro l
  induction l with
  | nil => intro last; rfl
  | cons q rest ih =>
    intro last
    rw [emitLoop, List.filter_append, ih,
      filter_emitLevels mz v q last hv2 (mz - minz + 1) (by omega)]
    have hcond : mz - v < mz - minz + 1 := by omega
    rw [if_pos hcond, levelKeys]
    unfold emitStep
    have hz : mz - (mz - v) = v := by omega
    by_cases hskip : q >>> ((mz - v) * 2) = last >>> ((mz - v) * 2)
    · rw [if_pos hskip, if_pos hskip]
      simp
    · rw [if_neg hskip, if_neg hskip, hz]
      simp [tile_of_quadkey]

/-- Right shift is monotone. -/
theorem shiftRight_le_shiftRight (a b s : Nat) (h : a ≤ b) : a >>> s ≤ b >>> s := by
  simp only [Nat.shiftRight_eq_div_pow]
  exact Nat.div_le_div_right h

/-- Any quadkey below the sentinel stays strictly below the shifted
sentinel. -/
theorem shiftRight_lt_sent (q mz s2 : Nat) (hq : q < 1 <<< (2 * mz))
    (hs : s2 ≤ 2 * mz) : q >>> s2 < (1 <<< (2 * mz)) >>> s2 := by
  rw [Nat.one_shiftLeft] at hq ⊢
  rw [Nat.shiftRight_eq_div_pow, Nat.shiftRight_eq_div_pow, Nat.pow_div hs (by omega)]
  apply (Nat.div_lt_iff_lt_mul (by positivity)).mpr
  rw [← pow_add]
  have he : 2 * mz - s2 + s2 = 2 * mz := by omega
  rw [he]
  exact hq

/-- Every emission of the inner loop carries a zoom in
`[minzoom, maxzoom]`. -/
theorem emitLevels_zoom_range (mz minz q last : Nat) (hmz : minz ≤ mz) :
    ∀ n, n ≤ mz - minz + 1 → ∀ t ∈ emitLevels mz q last n,
      minz ≤ t.2.2 ∧ t.2.2 ≤ mz := by
  intro n
  induction n with
  | zero => intro _ t ht; simp [emitLevels] at ht
  | succ n ih =>
    intro hn t ht
    rw [emitLevels] at ht
    rcases List.mem_append.mp ht with h | h
    · exact ih (by omega) t h
    · unfold emitStep at h
      by_cases hskip : q >>> (n * 2) = last >>> (n * 2)
      · rw [if_pos hskip] at h
        simp at h
      · rw [if_neg hskip] at h
        rcases List.mem_singleton.mp h with rfl
        constructor <;> simp <;> omega

/-- Every emission of the walk carries a zoom in `[minzoom, maxzoom]`. -/
theorem emitLoop_zoom_range (mz minz : Nat) (hmz : minz ≤ mz) :
    ∀ (l : List Nat) (last : Nat), ∀ t ∈ emitLoop mz minz l last,
      minz ≤ t.2.2 ∧ t.2.2 ≤ mz := by
  intro l
  induction l with
  | nil => intro last t ht; simp [emitLoop] at ht
  | cons q rest ih =>
    intro last t ht
    rw [emitLoop] at ht
    rcases List.mem_append.mp ht with h | h
    · exact emitLevels_zoom_range mz minz q last hmz (mz - minz + 1) (by omega) t h
    · exact ih q t h

/-- A list without duplicates counts each member exactly once (stated for
any lawful boolean equality). -/
theorem count_one_helper {α : Type} [BEq α] [LawfulBEq α] (l : List α) (a : α)
    (hd : l.Nodup) (ha : a ∈ l) : l.count a = 1 := by
  induction l with
  | nil => simp at ha
  | cons b t ih =>
    rw [List.count_cons]
    rcases List.mem_cons.mp ha with rfl | ha'
    · have h0 : t.count a = 0 := List.count_eq_zero.mpr (List.nodup_cons.mp hd).1
      simp [h0]
    · have hne : a ≠ b := by
        rintro rfl
        exact absurd ha' (List.nodup_cons.mp hd).1
      have hc := ih (List.nodup_cons.mp hd).2 ha'
      simp [hc]
      exact fun h => hne h.symm

/-- C2: Pyramid output.  For a duplicate-free dirty set whose quadkeys obey
the range invariant, and any `minzoom ≤ maxzoom`, at every zoom
`v ∈ [minzoom, maxzoom]` the emitted zoom-`v` tiles are in strictly
ascending quadkey order (hence no tile is emitted twice at a zoom), every
stored quadkey's ancestor at zoom `v` is emitted exactly once, nothing else
is emitted at zoom `v`, and no emission carries a zoom outside
`[minzoom, maxzoom]`. -/
theorem output_and_destroy_pyramid (s : expire_tiles) (minzoom v : Nat)
    (hnd : s.m_dirty_tiles.Nodup)
    (hbound : quadkey_bound_inv s)
    (hminz : minzoom ≤ s.maxzoom)
    (hv1 : minzoom ≤ v) (hv2 : v ≤ s.maxzoom) :
    (((output_and_destroy s minzoom).filter (fun t => t.2.2 = v)).map
        (fun t => xy_to_quadkey t.1 t.2.1 v)).Sorted (· < ·) ∧
    (∀ q ∈ s.m_dirty_tiles,
      tile_of_quadkey (q >>> ((s.maxzoom - v) * 2)) v ∈
        (output_and_destroy s minzoom).filter (fun t => t.2.2 = v)) ∧
    (∀ q ∈ s.m_dirty_tiles,
      ((output_and_destroy s minzoom).filter (fun t => t.2.2 = v)).count
        (tile_of_quadkey (q >>> ((s.maxzoom - v) * 2)) v) = 1) ∧
    (∀ t ∈ (output_and_destroy s minzoom).filter (fun t => t.2.2 = v),
      ∃ q ∈ s.m_dirty_tiles, t = tile_of_quadkey (q >>> ((s.maxzoom - v) * 2)) v) ∧
    (∀ t ∈ output_and_destroy s minzoom,
      minzoom ≤ t.2.2 ∧ t.2.2 ≤ s.maxzoom) := by
  have hfilter :
      (output_and_destroy s minzoom).filter (fun t => t.2.2 = v) =
        (levelKeys ((s.maxzoom - v) * 2) (s.m_dirty_tiles.insertionSort (· ≤ ·))
            (1 <<< (2 * s.maxzoom))).map (fun k => tile_of_quadkey k v) := by
    rw [output_and_destroy]
    exact filter_emitLoop s.maxzoom minzoom v hminz hv1 hv2 _ _
  rw [levelKeys_eq_destut] at hfilter
  have hsrt_sorted := List.sorted_insertionSort (· ≤ ·) s.m_dirty_tiles
  have hperm := List.perm_insertionSort (· ≤ ·) s.m_dirty_tiles
  set srt := s.m_dirty_tiles.insertionSort (· ≤ ·) with hsrtdef
  set s2 := (s.maxzoom - v) * 2 with hs2def
  set sent := 1 <<< (2 * s.maxzoom) with hsentdef
  set keys := destut (srt.map (· >>> s2)) (sent >>> s2) with hkeysdef
  have hmap_sorted : (srt.map (· >>> s2)).Sorted (· ≤ ·) :=
    List.Pairwise.map _ (fun a b hab => shiftRight_le_shiftRight a b s2 hab) hsrt_sorted
  have hs2le : s2 ≤ 2 * s.maxzoom := by omega
  have hmap_lt : ∀ y ∈ srt.map (· >>> s2), y < sent >>> s2 := by
    intro y hy
    obtain ⟨q, hq, rfl⟩ := List.mem_map.mp hy
    exact shiftRight_lt_sent q s.maxzoom s2 (hbound q (hperm.mem_iff.mp hq)) hs2le
  obtain ⟨hkeys_sorted, hkeys_mem⟩ := destut_sentinel_spec _ _ hmap_sorted hmap_lt
  have hk_bound : ∀ k ∈ keys, k < 2 ^ (2 * v) := by
    intro k hk
    have hk2 := destut_subset _ _ _ hk
    obtain ⟨q, hq, rfl⟩ := List.mem_map.mp hk2
    have hqb := hbound q (hperm.mem_iff.mp hq)
    rw [Nat.one_shiftLeft] at hqb
    rw [Nat.shiftRight_eq_div_pow]
    apply (Nat.div_lt_iff_lt_mul (by positivity)).mpr
    rw [← pow_add]
    have he : 2 * v + s2 = 2 * s.maxzoom := by omega
    rw [he]
    exact hqb
  have hinj : ∀ k ∈ keys, ∀ k' ∈ keys,
      tile_of_quadkey k v = tile_of_quadkey k' v → k = k' := by
    intro k hk k' hk' heq
    have h1 := xy_to_quadkey_quadkey_to_xy k v (hk_bound k hk)
    have h2 := xy_to_quadkey_quadkey_to_xy k' v (hk_bound k' hk')
    unfold tile_of_quadkey at heq
    simp only [Prod.mk.injEq] at heq
    rw [← h1, ← h2, heq.1, heq.2.1]
  refine ⟨?_, ?_, ?_, ?_, ?_⟩
  · rw [hfilter, List.map_map]
    have hmapeq :
        keys.map ((fun t : Nat × Nat × Nat => xy_to_quadkey t.1 t.2.1 v) ∘
          (fun k => tile_of_quadkey k v)) = keys.map id := by
      apply List.map_congr_left
      intro k hk
      simp only [Function.comp, tile_of_quadkey, id]
      exact xy_to_quadkey_quadkey_to_xy k v (hk_bound k hk)
    rw [hmapeq, List.map_id]
    exact hkeys_sorted
  · intro q hq
    rw [hfilter]
    apply List.mem_map_of_mem
    exact (hkeys_mem _).mpr (List.mem_map_of_mem _ (hperm.mem_iff.mpr hq))
  · intro q hq
    have hnodup : ((output_and_destroy s minzoom).filter (fun t => t.2.2 = v)).Nodup := by
      rw [hfilter]
      exact List.Nodup.map_on hinj hkeys_sorted.nodup
    apply count_one_helper _ _ hnodup
    rw [hfilter]
    apply List.mem_map_of_mem
    exact (hkeys_mem _).mpr (List.mem_map_of_mem _ (hperm.mem_iff.mpr hq))
  · intro t ht
    rw [hfilter] at ht
    obtain ⟨k, hk, rfl⟩ := List.mem_map.mp ht
    have hk2 := destut_subset _ _ _ hk
    obtain ⟨q, hq, rfl⟩ := List.mem_map.mp hk2
    exact ⟨q, hperm.mem_iff.mp hq, rfl⟩
  · intro t ht
    rw [output_and_destroy] at ht
    exact emitLoop_zoom_range s.maxzoom minzoom hminz _ _ t ht

/-- A sample state with a non-empty dirty set (quadkeys 2 and 1 at
maxzoom 1). -/
def sample_dirty_state : expire_tiles :=
  { sample_expire_state with m_dirty_tiles := [2, 1] }

/-- Witness for C2 at the concrete state with dirty quadkeys `[2, 1]`,
`maxzoom = 1`, `minzoom = v = 1`: the ancestor of quadkey 2 is emitted. -/
theorem output_and_destroy_pyramid_witness :
    tile_of_quadkey (2 >>> ((sample_dirty_state.maxzoom - 1) * 2)) 1 ∈
      (output_and_destroy sample_dirty_state 1).filter (fun t => t.2.2 = 1) :=
  (output_and_destroy_pyramid sample_dirty_state 1 1 (by decide)
      (by unfold quadkey_bound_inv; decide) (by decide) (by decide) (by decide)).2.1
    2 (by decide)

/-- C10: Output determinism.  Two instances with the same maxzoom whose
dirty-tile sets hold exactly the same quadkeys (in whatever order the hash
sets produced them) emit identical `(x, y, z)` sequences: the sort
canonicalises the unspecified iteration order. -/
theorem output_and_destroy_deterministic (s1 s2 : expire_tiles) (minzoom : Nat)
    (hmz : s1.maxzoom = s2.maxzoom)
    (h1 : s1.m_dirty_tiles.Nodup) (h2 : s2.m_dirty_tiles.Nodup)
    (hset : s1.m_dirty_tiles.toFinset = s2.m_dirty_tiles.toFinset) :
    output_and_destroy s1 minzoom = output_and_destroy s2 minzoom := by
  unfold output_and_destroy
  have hperm := List.perm_of_nodup_nodup_toFinset_eq h1 h2 hset
  have hsorteq : s1.m_dirty_tiles.insertionSort (· ≤ ·) =
      s2.m_dirty_tiles.insertionSort (· ≤ ·) :=
    List.eq_of_perm_of_sorted
      ((List.perm_insertionSort _ _).trans
        (hperm.trans (List.perm_insertionSort _ _).symm))
      (List.sorted_insertionSort _ _) (List.sorted_insertionSort _ _)
  rw [hmz, hsorteq]

/-- The sample state with the same dirty set in the opposite order. -/
def sample_dirty_state_perm : expire_tiles :=
  { sample_expire_state with m_dirty_tiles := [1, 2] }

/-- Witness for C10: the two orderings `[2, 1]` and `[1, 2]` of the same
dirty set produce identical output. -/
theorem output_and_destroy_deterministic_witness :
    output_and_destroy sample_dirty_state 1 =
      output_and_destroy sample_dirty_state_perm 1 :=
  output_and_destroy_deterministic sample_dirty_state sample_dirty_state_perm 1
    (by decide) (by decide) (by decide) (by decide)

/-- C++ `static_cast<uint32_t>` applied to a nonnegative `double`: the
value truncated toward zero, i.e. its floor.  (For values in `(-1, 0]`
truncation also gives `0`, matching `Int.toNat ∘ Int.floor`; values below
`-1` or at `2^32` and above are undefined behaviour in C++ and outside the
domains considered here.) -/
def u32ofRat (q : ℚ) : Nat := (Int.floor q).toNat

/-- Embedding of `class intersecting_tiles_t` (intersecting_tiles.hpp):
per-column crossing bounds for one polygon.  `stripe_t` becomes a list of
`uint32_t` lists; the `const double TILE_EXPIRY_LEEWAY` member is the
`leeway` field. -/
structure intersecting_tiles_t where
  offset_x : Nat
  max_tile_id : Nat
  leeway : ℚ
  min_bounds : List (List Nat)
  max_bounds : List (List Nat)
  current_x : Nat := 0
  next_idx_min : Nat := 0
  next_idx_max : Nat := 0
  deriving Repr, DecidableEq

/-- Embedding of the `intersecting_tiles_t` constructor
(intersecting_tiles.cpp): both stripe vectors get
`u32(x_max + leeway) - u32(x_min - leeway) + 1` empty columns. -/
def intersecting_tiles_init (x_min x_max : ℚ) (map_width : Nat) (leeway : ℚ) :
    intersecting_tiles_t :=
  { offset_x := u32ofRat (x_min - leeway),
    max_tile_id := map_width,
    leeway := leeway,
    min_bounds :=
      List.replicate (u32ofRat (x_max + leeway) - u32ofRat (x_min - leeway) + 1) [],
    max_bounds :=
      List.replicate (u32ofRat (x_max + leeway) - u32ofRat (x_min - leeway) + 1) [] }

/-- Embedding of `intersecting_tiles_t::get_x_index`: the `uint32_t`
subtraction `x - offset_x`, which wraps modulo `2^32` (both operands are
`uint32_t` values). -/
def get_x_index (t : intersecting_tiles_t) (x : Nat) : Nat :=
  (x + 2 ^ 32 - t.offset_x % 2 ^ 32) % 2 ^ 32

/-- Embedding of `intersecting_tiles_t::add_minimum`: append
`u32(min - TILE_EXPIRY_LEEWAY)` to the column's minima; `std::vector::at`
throws (modelled as `none`) when the index is out of range. -/
def add_minimum (t : intersecting_tiles_t) (x : Nat) (min : ℚ) :
    Option intersecting_tiles_t :=
  if get_x_index t x < t.min_bounds.length then
    some { t with
      min_bounds := t.min_bounds.set (get_x_index t x)
        (t.min_bounds.getD (get_x_index t x) [] ++ [u32ofRat (min - t.leeway)]) }
  else none

/-- Embedding of `intersecting_tiles_t::add_maximum`: append
`u32(max + TILE_EXPIRY_LEEWAY)` to the column's maxima. -/
def add_maximum (t : intersecting_tiles_t) (x : Nat) (max : ℚ) :
    Option intersecting_tiles_t :=
  if get_x_index t x < t.max_bounds.length then
    some { t with
      max_bounds := t.max_bounds.set (get_x_index t x)
        (t.max_bounds.getD (get_x_index t x) [] ++ [u32ofRat (max + t.leeway)]) }
  else none

/-- Embedding of `intersecting_tiles_t::interior_side_above`
(intersecting_tiles.cpp): `atan2(y1 - y2, x2 - x1)` lies strictly between
`-π/2` and `π/2` exactly when `x2 - x1 > 0`, or when both arguments are
zero (`atan2(0, 0) = 0`). -/
def interior_side_above (x1 y1 x2 y2 : ℚ) : Bool :=
  (x2 - x1 > 0) || (x2 - x1 == 0 && y1 - y2 == 0)

/-- Embedding of `intersecting_tiles_t::add_minimum_or_maximum`. -/
def add_minimum_or_maximum (t : intersecting_tiles_t) (x : Nat) (y1 y2 : ℚ)
    (interior_above : Bool) : Option intersecting_tiles_t :=
  if interior_above then add_maximum t x (max y1 y2)
  else add_minimum t x (min y1 y2)

/-- Embedding of `intersecting_tiles_t::evaluate_segment`
(intersecting_tiles.cpp).  The `outer_ring` parameter is accepted and, as
in the C++, never read. -/
def evaluate_segment (t : intersecting_tiles_t) (x1 y1 x2 y2 : ℚ)
    (outer_ring : Bool) : Option intersecting_tiles_t :=
  if u32ofRat (min x1 x2 - t.leeway) = u32ofRat (max x1 x2 + t.leeway) then
    (add_minimum t (u32ofRat x1) (min y1 y2)).bind fun t2 =>
      add_maximum t2 (u32ofRat x1) (max y1 y2)
  else
    let interior_above := interior_side_above x1 y1 x2 y2
    -- swap the endpoints so the segment runs from west to east
    let p := if x2 < x1 then ((x2, y2), (x1, y1)) else ((x1, y1), (x2, y2))
    let start := u32ofRat (p.1.1 - t.leeway)
    let stop := u32ofRat (p.2.1 + t.leeway)
    (List.range' start (stop + 1 - start)).foldlM
      (fun acc x =>
        (add_minimum_or_maximum acc x p.1.2 p.2.2 interior_above).bind fun acc2 =>
          if x ≠ start ∧ x ≠ stop then
            add_minimum_or_maximum acc2 x p.1.2 p.2.2 interior_above
          else some acc2)
      t

/-- C8: Short-edge contribution.  For a segment whose whole leeway-inflated
x-extent truncates into a single column strip, `evaluate_segment` appends
exactly one minimum entry `⌊min(y1,y2) - leeway⌋` and exactly one maximum
entry `⌊max(y1,y2) + leeway⌋`, both to the column
`⌊min(x1,x2) - leeway⌋`, and modifies nothing else (the hypotheses keep the
truncating casts on their defined, in-range domain). -/
theorem evaluate_segment_short_edge (t : intersecting_tiles_t) (x1 y1 x2 y2 : ℚ)
    (outer_ring : Bool)
    (hlee : 0 ≤ t.leeway)
    (hx0 : 0 ≤ min x1 x2 - t.leeway)
    (hy0 : 0 ≤ min y1 y2 - t.leeway)
    (hshort : ⌊min x1 x2 - t.leeway⌋ = ⌊max x1 x2 + t.leeway⌋)
    (hoff : t.offset_x ≤ u32ofRat (min x1 x2 - t.leeway))
    (hx32 : u32ofRat (min x1 x2 - t.leeway) < 2 ^ 32)
    (hoff32 : t.offset_x < 2 ^ 32)
    (hlen_min : u32ofRat (min x1 x2 - t.leeway) - t.offset_x < t.min_bounds.length)
    (hlen_max : u32ofRat (min x1 x2 - t.leeway) - t.offset_x < t.max_bounds.length) :
    evaluate_segment t x1 y1 x2 y2 outer_ring =
      some { t with
        min_bounds := t.min_bounds.set
          (u32ofRat (min x1 x2 - t.leeway) - t.offset_x)
          (t.min_bounds.getD (u32ofRat (min x1 x2 - t.leeway) - t.offset_x) [] ++
            [u32ofRat (min y1 y2 - t.leeway)]),
        max_bounds := t.max_bounds.set
          (u32ofRat (min x1 x2 - t.leeway) - t.offset_x)
          (t.max_bounds.getD (u32ofRat (min x1 x2 - t.leeway) - t.offset_x) [] ++
            [u32ofRat (max y1 y2 + t.leeway)]) } := by
  clear hy0
  have hcond : u32ofRat (min x1 x2 - t.leeway) = u32ofRat (max x1 x2 + t.leeway) := by
    unfold u32ofRat
    rw [hshort]
  have hx1 : ⌊x1⌋ = ⌊min x1 x2 - t.leeway⌋ := by
    have hle1 : min x1 x2 - t.leeway ≤ x1 := by
      have h := min_le_left x1 x2
      linarith
    have hle2 : x1 ≤ max x1 x2 + t.leeway := by
      have h := le_max_left x1 x2
      linarith
    have f1 := Int.floor_le_floor hle1
    have f2 := Int.floor_le_floor hle2
    omega
  have hx1u : u32ofRat x1 = u32ofRat (min x1 x2 - t.leeway) := by
    unfold u32ofRat
    rw [hx1]
  have hidx : get_x_index t (u32ofRat x1) = u32ofRat (min x1 x2 - t.leeway) - t.offset_x := by
    rw [hx1u]
    unfold get_x_index
    omega
  have hbind : ∀ (a : intersecting_tiles_t) (f : intersecting_tiles_t → Option intersecting_tiles_t),
      (some a).bind f = f a := fun _ _ => rfl
  unfold evaluate_segment
  rw [if_pos hcond]
  unfold add_minimum
  rw [hidx, if_pos hlen_min, hbind]
  unfold add_maximum
  have hidx2 : get_x_index
      { t with
        min_bounds := t.min_bounds.set
          (u32ofRat (min x1 x2 - t.leeway) - t.offset_x)
          (t.min_bounds.getD (u32ofRat (min x1 x2 - t.leeway) - t.offset_x) [] ++
            [u32ofRat (min y1 y2 - t.leeway)]) }
      (u32ofRat x1) = u32ofRat (min x1 x2 - t.leeway) - t.offset_x := by
    rw [hx1u]
    unfold get_x_index
    simp only
    omega
  rw [hidx2]
  rw [if_pos (by simpa using hlen_max)]

/-- A one-column scratch structure with `offset_x = 1` and zero leeway, for
instantiating the short-edge theorem concretely. -/
def sample_tiles_state : intersecting_tiles_t :=
  { offset_x := 1, max_tile_id := 8, leeway := 0, min_bounds := [[]], max_bounds := [[]] }

/-- Witness for C8 at the degenerate-width segment `(1, 2) - (1, 2)` on the
sample scratch state. -/
theorem evaluate_segment_short_edge_witness :
    evaluate_segment sample_tiles_state 1 2 1 2 true =
      some { sample_tiles_state with
        min_bounds := sample_tiles_state.min_bounds.set
          (u32ofRat (min 1 1 - sample_tiles_state.leeway) - sample_tiles_state.offset_x)
          (sample_tiles_state.min_bounds.getD
            (u32ofRat (min 1 1 - sample_tiles_state.leeway) -
              sample_tiles_state.offset_x) [] ++
            [u32ofRat (min 2 2 - sample_tiles_state.leeway)]),
        max_bounds := sample_tiles_state.max_bounds.set
          (u32ofRat (min 1 1 - sample_tiles_state.leeway) - sample_tiles_state.offset_x)
          (sample_tiles_state.max_bounds.getD
            (u32ofRat (min 1 1 - sample_tiles_state.leeway) -
              sample_tiles_state.offset_x) [] ++
            [u32ofRat (max 2 2 + sample_tiles_state.leeway)]) } :=
  evaluate_segment_short_edge sample_tiles_state 1 2 1 2 true
    (by simp [sample_tiles_state])
    (by simp [sample_tiles_state])
    (by simp [sample_tiles_state])
    (by simp [sample_tiles_state])
    (by simp [sample_tiles_state, u32ofRat])
    (by simp [sample_tiles_state, u32ofRat])
    (by simp [sample_tiles_state])
    (by simp [sample_tiles_state, u32ofRat])
    (by simp [sample_tiles_state, u32ofRat])

/-- Tokens of the EWKB body of a polygon as exposed by `ewkb::parser_t`:
`read_length` consumes a `len`, `read_point` consumes a `pt`. -/
inductive WkbTok
  | len (n : Nat)
  | pt (x y : ℚ)
  deriving Repr, DecidableEq

/-- The geometry-level expiry calls `from_wkb_line` makes: one
`from_point` for a single-point linestring, else one `from_line_lon_lat`
per consecutive point pair. -/
inductive ExpireEvent
  | point (x y : ℚ)
  | segment (x1 y1 x2 y2 : ℚ)
  deriving Repr, DecidableEq

/-- Embedding of `ewkb::parser_t::read_length`. -/
def read_length : List WkbTok → Option (Nat × List WkbTok)
  | .len n :: rest => some (n, rest)
  | _ => none

/-- Embedding of `ewkb::parser_t::read_point`. -/
def read_point : List WkbTok → Option ((ℚ × ℚ) × List WkbTok)
  | .pt x y :: rest => some ((x, y), rest)
  | _ => none

/-- Read `n` consecutive points. -/
def read_points : Nat → List WkbTok → Option (List (ℚ × ℚ) × List WkbTok)
  | 0, toks => some ([], toks)
  | n + 1, toks =>
    (read_point toks).bind fun pr =>
      (read_points n pr.2).bind fun ps => some (pr.1 :: ps.1, ps.2)

/-- The chain of `from_line_lon_lat(prev, cur)` calls of the
`from_wkb_line` loop. -/
def segments_of : (ℚ × ℚ) → List (ℚ × ℚ) → List ExpireEvent
  | _, [] => []
  | prev, cur :: rest =>
    .segment prev.1 prev.2 cur.1 cur.2 :: segments_of cur rest

/-- Embedding of `expire_tiles::from_wkb_line` (expire-tiles.cpp) as the
list of expiry calls it performs, plus the cursor it leaves behind. -/
def from_wkb_line_model (toks : List WkbTok) :
    Option (List ExpireEvent × List WkbTok) :=
  (read_length toks).bind fun szr =>
    if szr.1 = 0 then some ([], szr.2)
    else if szr.1 = 1 then
      (read_point szr.2).bind fun pr => some ([.point pr.1.1 pr.1.2], pr.2)
    else
      (read_point szr.2).bind fun pr =>
        (read_points (szr.1 - 1) pr.2).bind fun ps =>
          some (segments_of pr.1 ps.1, ps.2)

/-- The bounding-box accumulation loop of `from_wkb_polygon` over the
remaining `n` points of the outer ring. -/
def bbox_fold : (ℚ × ℚ) → (ℚ × ℚ) → Nat → List WkbTok →
    Option ((ℚ × ℚ) × (ℚ × ℚ) × List WkbTok)
  | mn, mx, 0, toks => some (mn, mx, toks)
  | mn, mx, n + 1, toks =>
    (read_point toks).bind fun pr =>
      bbox_fold (min mn.1 pr.1.1, min mn.2 pr.1.2)
        (max mx.1 pr.1.1, max mx.2 pr.1.2) n pr.2

/-- Result of `from_wkb_polygon`: either the evil-polygon branch was taken
(with the expiry calls it made before returning), or control reached the
projection-dependent interior-fill path (not modelled further; the evil
claim never reaches it). -/
inductive PolygonOutcome
  | evil (events : List ExpireEvent)
  | normal
  deriving Repr, DecidableEq

/-- Embedding of `expire_tiles::from_wkb_polygon` (expire-tiles.cpp) up to
and including the evil-polygon branch: read `num_rings` (asserted positive),
save the cursor, compute the unprojected bbox of the outer ring, rewind,
and when the bbox exceeds `max_bbox` run the loop
`for (ring = 0; ring < num_rings; ++ring) { rewind(start);
from_wkb_line(wkb); return; }` — whose body returns during its first
iteration, after expiring the single linestring read from `start`. -/
def from_wkb_polygon_model (max_bbox : ℚ) (toks : List WkbTok) :
    Option PolygonOutcome :=
  (read_length toks).bind fun nr =>
    if nr.1 = 0 then none
    else
      (read_length nr.2).bind fun np =>
        (read_point np.2).bind fun ip =>
          (bbox_fold ip.1 ip.1 (np.1 - 1) ip.2).bind fun bb =>
            if bb.2.1.1 - bb.1.1 > max_bbox ∨ bb.2.1.2 - bb.1.2 > max_bbox then
              (from_wkb_line_model nr.2).bind fun ev => some (.evil ev.1)
            else
              some .normal

/-- Serialisation of a polygon (list of rings) into the token stream the
parser walks: ring count, then each ring's point count and points. -/
def polygon_toks (rings : List (List (ℚ × ℚ))) : List WkbTok :=
  .len rings.length ::
    rings.bind (fun r => .len r.length :: r.map (fun c => .pt c.1 c.2))

set_option maxHeartbeats 2000000 in
/-- C7 evaluation: on a two-ring polygon whose bbox (width 5) exceeds
`max_bbox = 1`, the evil branch expires only the outer ring's segments as a
linestring and returns — the inner ring is never expired, contradicting
both the claim and the code's own comment. -/
theorem evil_polygon_first_ring_only :
    from_wkb_polygon_model 1
        (polygon_toks [[(0, 0), (5, 0), (5, 5), (0, 5), (0, 0)],
                       [(1, 1), (2, 1), (2, 2), (1, 2), (1, 1)]]) =
      some (.evil [.segment 0 0 5 0, .segment 5 0 5 5,
                   .segment 5 5 0 5, .segment 0 5 0 0]) := by
  norm_num [from_wkb_polygon_model, polygon_toks, read_length, read_point,
    bbox_fold, from_wkb_line_model, read_points, segments_of, Option.bind]
